import Mathlib

/-!
# Parallel composite trapezoidal rule (Lab04/trapecio.go, Lab04/trapecioPool.go, Lab4/trapecioPool.go)

Shallow embedding of the three Go programs.

* `float64` values are read over exact arithmetic: they are modelled by `ℚ`.
  `float64(n)` is the cast `(n : ℚ)`.  Go's float division by zero gives an infinity or a NaN,
  which `ℚ` does not have; no statement below is about a value computed with `n = 0`.
* Go's `int` is modelled by `Int`.  For `n ≥ 1` and a task count `k ≥ 1` every intermediate
  integer of the partition lies between `0` and `n + 1`, so no wrap-around is modelled.
  Go's integer `/` truncates toward zero: `Int.tdiv`.
* A Go run-time panic (`make` with a negative length, integer division by zero) is the
  result `none`.
* Each goroutine of `integrar` writes only the `sumaParcial` of its own worker, and the
  workers are read after `wg.Wait()`; the value read is the one the worker's loop computes,
  whatever the interleaving.  The tasks of `CalcularConPool` deliver their sums through a
  channel in an order that depends on scheduling; the sum of the deliveries is the same for
  every order (`resultados_orden_irrelevante`).
* The thread pool is a transition system over the interleavings of its goroutines (see the
  section on the thread pool).
-/

namespace Trapecio

/-- Source `FuncionEjemplo.Evaluar` (trapecio.go:17-19): `2*x*x + 3*x + 0.5`. -/
def FuncionEjemplo.Evaluar (x : ℚ) : ℚ := 2 * x * x + 3 * x + 0.5

/-- Source `TrabajadorTrapecio` (trapecio.go:22-27). -/
structure TrabajadorTrapecio where
  f : ℚ → ℚ
  a : ℚ
  h : ℚ
  inicio : Int
  fin : Int
  sumaParcial : ℚ

/-- The loop of `Calcular` (trapecio.go:31-34) from index `i` on, with the running value of
`t.sumaParcial` in `suma`: `for ; i <= t.fin; i++ { suma += t.f.Evaluar(t.a + float64(i)*t.h) }`. -/
def TrabajadorTrapecio.bucle (f : ℚ → ℚ) (a h : ℚ) (fin : Int) (i : Int) (suma : ℚ) : ℚ :=
  if i ≤ fin then
    TrabajadorTrapecio.bucle f a h fin (i + 1) (suma + f (a + (i : ℚ) * h))
  else suma
termination_by (fin + 1 - i).toNat
decreasing_by omega

/-- Source `TrabajadorTrapecio.Calcular` (trapecio.go:29-35): the worker after its goroutine has
finished. -/
def TrabajadorTrapecio.Calcular (t : TrabajadorTrapecio) : TrabajadorTrapecio :=
  { t with sumaParcial := TrabajadorTrapecio.bucle t.f t.a t.h t.fin t.inicio t.sumaParcial }

/-- Source `inicio := t*tamañoBloque + 1` (trapecio.go:47). -/
def integrar.inicio (tamanoBloque t : Int) : Int := t * tamanoBloque + 1

/-- The value of `fin` (trapecio.go:48-51): `n - 1`, replaced by `inicio + tamañoBloque - 1`
when `t != numGoroutines-1`. -/
def integrar.fin (n numGoroutines tamanoBloque t : Int) : Int :=
  if t ≠ numGoroutines - 1 then integrar.inicio tamanoBloque t + tamanoBloque - 1 else n - 1

/-- The pairs `(inicio, fin)` the loop of trapecio.go:46-55 computes, one for each `t` in
`0 .. numGoroutines-1`. -/
def integrar.rangos (n numGoroutines tamanoBloque : Int) : List (Int × Int) :=
  (List.range numGoroutines.toNat).map fun t : Nat =>
    (integrar.inicio tamanoBloque (t : Int), integrar.fin n numGoroutines tamanoBloque (t : Int))

/-- The slice `trabajadores` as the loop of trapecio.go:46-55 fills it:
`&TrabajadorTrapecio{f: f, a: a, h: h, inicio: inicio, fin: fin}` for each `t`; one goroutine
is started for each element. -/
def integrar.trabajadores (f : ℚ → ℚ) (a h : ℚ) (n numGoroutines tamanoBloque : Int) :
    List TrabajadorTrapecio :=
  (integrar.rangos n numGoroutines tamanoBloque).map fun r =>
    { f := f, a := a, h := h, inicio := r.1, fin := r.2, sumaParcial := 0 }

/-- One run of `integrar` (trapecio.go:38-65): the workers whose goroutines were started, as
they stand after `wg.Wait()`, and the value returned.  `none` is a run-time panic: `make`
panics on a negative `numGoroutines`, and `n / numGoroutines` panics when `numGoroutines` is
`0`; both happen before the loop that starts the goroutines. -/
def integrar.ejecutar (f : ℚ → ℚ) (a b : ℚ) (n numGoroutines : Int) :
    Option (List TrabajadorTrapecio × ℚ) :=
  let h := (b - a) / (n : ℚ)
  if numGoroutines < 0 then none
  else if numGoroutines = 0 then none
  else
    let tamanoBloque := n.tdiv numGoroutines
    let trabajadores :=
      (integrar.trabajadores f a h n numGoroutines tamanoBloque).map
        TrabajadorTrapecio.Calcular
    let suma := trabajadores.foldl (fun suma trab => suma + 2 * trab.sumaParcial) (f a + f b)
    some (trabajadores, (h / 2) * suma)

/-- Source `integrar` (trapecio.go:38-65): the value returned, `none` for a run-time panic. -/
def integrar (f : ℚ → ℚ) (a b : ℚ) (n numGoroutines : Int) : Option ℚ :=
  (integrar.ejecutar f a b n numGoroutines).map Prod.snd

end Trapecio

namespace TrapecioPool

/-- Source `start := tareaID * puntosPorTarea + 1` (Lab04/trapecioPool.go:84, Lab4/trapecioPool.go:70). -/
def CalcularConPool.start (puntosPorTarea tareaID : Int) : Int := tareaID * puntosPorTarea + 1

/-- The value of `end` (Lab04/trapecioPool.go:85-88, Lab4/trapecioPool.go:71-74):
`(tareaID + 1) * puntosPorTarea`, replaced by `n - 1` when `tareaID == numTareas-1`. -/
def CalcularConPool.end_ (n numTareas puntosPorTarea tareaID : Int) : Int :=
  if tareaID = numTareas - 1 then n - 1 else (tareaID + 1) * puntosPorTarea

/-- The loop of a submitted task (Lab04/trapecioPool.go:97-100) from index `i` on:
`for ; i <= endLocal; i++ { sumaLocal += tp.funcion(tp.a + float64(i)*h) }`. -/
def CalcularConPool.bucle (funcion : ℚ → ℚ) (a h : ℚ) (endLocal : Int) (i : Int)
    (sumaLocal : ℚ) : ℚ :=
  if i ≤ endLocal then
    CalcularConPool.bucle funcion a h endLocal (i + 1) (sumaLocal + funcion (a + (i : ℚ) * h))
  else sumaLocal
termination_by (endLocal + 1 - i).toNat
decreasing_by omega

/-- The pairs `(startLocal, endLocal)` the submitted tasks capture, one for each `tareaID` in
`0 .. numTareas-1` (Lab04/trapecioPool.go:82-91, Lab4/trapecioPool.go:68-77). -/
def CalcularConPool.rangos (n numTareas puntosPorTarea : Int) : List (Int × Int) :=
  (List.range numTareas.toNat).map fun tareaID : Nat =>
    (CalcularConPool.start puntosPorTarea (tareaID : Int),
      CalcularConPool.end_ n numTareas puntosPorTarea (tareaID : Int))

/-- The values the tasks send on `resultados`, listed by `tareaID`
(Lab04/trapecioPool.go:94-102). -/
def CalcularConPool.resultados (funcion : ℚ → ℚ) (a h : ℚ) (n numTareas puntosPorTarea : Int) :
    List ℚ :=
  (CalcularConPool.rangos n numTareas puntosPorTarea).map fun r =>
    CalcularConPool.bucle funcion a h r.2 r.1 0

/-- Source `TrapecioPool.CalcularConPool` (Lab04/trapecioPool.go:72-117, Lab4/trapecioPool.go:58-99)
on a `TrapecioPool{funcion, a, b}`.  `numTareas` stands for `runtime.NumCPU() * 4`; the pool
is taken to run every submitted task.  `none` is a run-time panic (`make` of a channel with a
negative size, integer division by zero). -/
def CalcularConPool (funcion : ℚ → ℚ) (a b : ℚ) (n numTareas : Int) : Option ℚ :=
  let h := (b - a) / (n : ℚ)
  if numTareas < 0 then none
  else
    let suma := 0.5 * (funcion a + funcion b)
    if numTareas = 0 then none
    else
      let puntosPorTarea := n.tdiv numTareas
      let suma :=
        (CalcularConPool.resultados funcion a h n numTareas puntosPorTarea).foldl
          (fun suma resultado => suma + resultado) suma
      some (suma * h)

end TrapecioPool

/-- The composite trapezoidal value `(h/2) * (f(a) + f(b) + 2 * Σ_{i=1}^{n-1} f(a + i*h))`
with `h = (b - a)/n`. -/
def trapecioCompuesto (f : ℚ → ℚ) (a b : ℚ) (n : Int) : ℚ :=
  ((b - a) / (n : ℚ)) / 2 *
    (f a + f b + 2 * ∑ i ∈ Finset.Icc (1 : ℤ) (n - 1), f (a + (i : ℚ) * ((b - a) / (n : ℚ))))

/-- The planner of the spec (§4.2) for a given block size: for task `i` in `0..numTasks-1`,
`start = i*blockSize + 1`; `end = (i+1)*blockSize` for all but the last task; the last
task's `end = n-1`. -/
def Plan.conBloque (blockSize n numTasks : Int) : List (Int × Int) :=
  (List.range numTasks.toNat).map fun i : Nat =>
    ((i : Int) * blockSize + 1,
      if (i : Int) = numTasks - 1 then n - 1 else ((i : Int) + 1) * blockSize)

/-- The planner as the spec words it (§4.2): `blockSize = (n-1)/numTasks` (integer division,
truncating). -/
def Plan (n numTasks : Int) : List (Int × Int) :=
  Plan.conBloque ((n - 1).tdiv numTasks) n numTasks

/-- Index `i` lies in the inclusive range `r = (inicio, fin)`. -/
def enRango (i : Int) (r : Int × Int) : Prop := r.1 ≤ i ∧ i ≤ r.2

instance (i : Int) (r : Int × Int) : Decidable (enRango i r) :=
  inferInstanceAs (Decidable (_ ∧ _))

/-- A list of inclusive ranges covers the interior indices `1 .. n-1` exactly once: the
ranges are pairwise disjoint, every index of `1 .. n-1` lies in exactly one of them, and no
range contains an index outside `1 .. n-1`. -/
def CubreInterior (n : Int) (rs : List (Int × Int)) : Prop :=
  rs.Pairwise (fun r s => ∀ i : Int, ¬ (enRango i r ∧ enRango i s)) ∧
  (∀ i : Int, 1 ≤ i → i ≤ n - 1 → rs.countP (fun r => decide (enRango i r)) = 1) ∧
  (∀ r ∈ rs, ∀ i : Int, enRango i r → 1 ≤ i ∧ i ≤ n - 1)

/-! ## The thread pool (Lab04/trapecioPool.go:13-49, Lab4/trapecioPool.go:10-42)

The pool is modelled as a transition system over the interleavings of the goroutines: the
producer (the goroutine that calls `NewThreadPool`, then `Submit` for the jobs `0 .. K-1` in
turn, then `Wait`) and the `workers` worker goroutines.  The channel `pool.jobs` is a FIFO
buffer of capacity `workers*10`; a send needs room in the buffer, a receive of the `range`
loop takes the oldest job, and the loop ends when the channel is closed and empty.  A job is a
terminating call that increments a completion counter; the log records which worker ran it. -/

namespace ThreadPool

/-- Where a worker goroutine (trapecioPool.go:29-34) stands: at the receive of
`for job := range pool.jobs`, inside `job()`, or past the loop with `pool.wg.Done()` run. -/
inductive Trabajador where
  | esperando
  | ejecutando (job : Nat)
  | terminado
  deriving DecidableEq, Repr

/-- Where the producer stands: about to make call number `i` (`Submit` of job `i` when
`i < K`, `Wait` when `i = K`), inside `Wait` after `close(p.jobs)` and blocked in
`p.wg.Wait()`, or returned from `Wait`. -/
inductive Productor where
  | enviando (i : Nat)
  | esperandoWg
  | retornado
  deriving DecidableEq, Repr

/-- The pool (`jobs` with its capacity and closed flag, the counter of `wg`), the control
points of the goroutines, and two observers: the log of `(worker, job)` executions and the
completion counter the jobs increment. -/
structure Estado where
  jobs : List Nat
  capacidad : Nat
  cerrado : Bool
  wg : Nat
  trabajadores : List Trabajador
  productor : Productor
  bitacora : List (Nat × Nat)
  contador : Nat
  deriving DecidableEq, Repr

/-- One scheduling choice: let the producer move, or let worker `w` receive a job, finish
the job it runs, or leave its loop. -/
inductive Accion where
  | productor
  | recibir (w : Nat)
  | terminarJob (w : Nat)
  | salir (w : Nat)
  deriving DecidableEq, Repr

/-- The state when `NewThreadPool(workers)` returns (trapecioPool.go:20-38): the channel is
made with capacity `workers*10`, `wg.Add(1)` has run `workers` times and `workers` goroutines
have been started, each at its receive. -/
def NewThreadPool (workers : Nat) : Estado :=
  { jobs := [], capacidad := workers * 10, cerrado := false, wg := workers,
    trabajadores := List.replicate workers Trabajador.esperando,
    productor := Productor.enviando 0, bitacora := [], contador := 0 }

/-- `Submit` of job `i` (trapecioPool.go:41-43): the send `p.jobs <- job`, possible when the
buffer has room. -/
def Submit (s : Estado) (i : Nat) : Option Estado :=
  if s.jobs.length < s.capacidad then
    some { s with jobs := s.jobs ++ [i], productor := Productor.enviando (i + 1) }
  else none

/-- First half of `Wait` (trapecioPool.go:47): `close(p.jobs)`. -/
def Wait.close (s : Estado) : Estado :=
  { s with cerrado := true, productor := Productor.esperandoWg }

/-- Second half of `Wait` (trapecioPool.go:48): `p.wg.Wait()` returns when the counter is
`0`. -/
def Wait.wgWait (s : Estado) : Option Estado :=
  if s.wg = 0 then some { s with productor := Productor.retornado } else none

/-- One step of the system under the scheduling choice `a`, for a producer that submits `K`
jobs; `none` when the chosen goroutine cannot move (it is blocked or has finished). -/
def paso (K : Nat) (s : Estado) : Accion → Option Estado
  | Accion.productor =>
    match s.productor with
    | Productor.enviando i => if i < K then Submit s i else some (Wait.close s)
    | Productor.esperandoWg => Wait.wgWait s
    | Productor.retornado => none
  | Accion.recibir w =>
    match s.trabajadores[w]?, s.jobs with
    | some Trabajador.esperando, job :: resto =>
      some { s with jobs := resto,
                    trabajadores := s.trabajadores.set w (Trabajador.ejecutando job) }
    | _, _ => none
  | Accion.terminarJob w =>
    match s.trabajadores[w]? with
    | some (Trabajador.ejecutando job) =>
      some { s with trabajadores := s.trabajadores.set w Trabajador.esperando,
                    bitacora := (w, job) :: s.bitacora,
                    contador := s.contador + 1 }
    | _ => none
  | Accion.salir w =>
    match s.trabajadores[w]?, s.jobs, s.cerrado with
    | some Trabajador.esperando, [], true =>
      some { s with trabajadores := s.trabajadores.set w Trabajador.terminado,
                    wg := s.wg - 1 }
    | _, _, _ => none

/-- Run a schedule from `s`; `none` when one of its choices cannot move. -/
def correr (K : Nat) (s : Estado) : List Accion → Option Estado
  | [] => some s
  | a :: resto =>
    match paso K s a with
    | some s2 => correr K s2 resto
    | none => none

/-- Number of steps left before `Wait` has returned and every goroutine has finished. -/
def medida (K : Nat) (s : Estado) : Nat :=
  (match s.productor with
    | Productor.enviando i => 3 * (K - i) + 2
    | Productor.esperandoWg => 1
    | Productor.retornado => 0)
  + 2 * s.jobs.length
  + (s.trabajadores.map fun t =>
      match t with
      | Trabajador.esperando => 1
      | Trabajador.ejecutando _ => 2
      | Trabajador.terminado => 0).sum

/-- Number of calls the producer has completed among the `K` calls of `Submit`. -/
def enviados (K : Nat) (s : Estado) : Nat :=
  match s.productor with
  | Productor.enviando i => i
  | _ => K

/-- The invariant of the runs of a pool of `workers` workers fed `K` jobs. -/
structure Inv (workers K : Nat) (s : Estado) : Prop where
  cap : s.capacidad = workers * 10
  len : s.trabajadores.length = workers
  wg : s.wg + s.trabajadores.count Trabajador.terminado = workers
  abierto : ∀ i, s.productor = Productor.enviando i → s.cerrado = false ∧ i ≤ K
  cerr : s.productor = Productor.esperandoWg ∨ s.productor = Productor.retornado →
    s.cerrado = true
  term : 0 < s.trabajadores.count Trabajador.terminado → s.cerrado = true ∧ s.jobs = []
  cuenta : ∀ j, (s.bitacora.map Prod.snd).count j + s.jobs.count j
      + s.trabajadores.count (Trabajador.ejecutando j) = if j < enviados K s then 1 else 0
  cont : s.contador = s.bitacora.length
  quien : ∀ e ∈ s.bitacora, e.1 < workers
  ret : s.productor = Productor.retornado → s.wg = 0

/-- A schedule for two workers and three jobs in which the workers overlap with the
producer and with each other. -/
def ejemploAcciones : List Accion :=
  [Accion.productor, Accion.recibir 0, Accion.productor, Accion.productor, Accion.recibir 1,
    Accion.terminarJob 1, Accion.recibir 1, Accion.productor, Accion.terminarJob 0,
    Accion.salir 0, Accion.terminarJob 1, Accion.salir 1, Accion.productor]

/-- The state in which `ejemploAcciones` ends. -/
def ejemploFinal : Estado :=
  { jobs := [], capacidad := 20, cerrado := true, wg := 0,
    trabajadores := [Trabajador.terminado, Trabajador.terminado],
    productor := Productor.retornado, bitacora := [(1, 2), (0, 0), (1, 1)], contador := 3 }

end ThreadPool

/-! ## The loops -/

theorem Trapecio.bucle_eq (f : ℚ → ℚ) (a h : ℚ) (fin : Int) :
    ∀ (m : Nat) (i : Int) (suma : ℚ), (fin + 1 - i).toNat = m →
      Trapecio.TrabajadorTrapecio.bucle f a h fin i suma
        = suma + ∑ j ∈ Finset.Icc i fin, f (a + (j : ℚ) * h) := by
  intro m
  induction m with
  | zero =>
    intro i suma hm
    have hlt : fin < i := by omega
    rw [Trapecio.TrabajadorTrapecio.bucle, if_neg (not_le.mpr hlt), Finset.Icc_eq_empty_of_lt hlt]
    simp
  | succ m ih =>
    intro i suma hm
    have hle : i ≤ fin := by omega
    rw [Trapecio.TrabajadorTrapecio.bucle, if_pos hle, ih (i + 1) _ (by omega)]
    have hsplit : Finset.Icc i fin = insert i (Finset.Icc (i + 1) fin) := by
      ext x
      simp only [Finset.mem_Icc, Finset.mem_insert]
      omega
    rw [hsplit, Finset.sum_insert (by simp), add_assoc]

theorem TrapecioPool.bucle_pool_eq (f : ℚ → ℚ) (a h : ℚ) (fin : Int) :
    ∀ (m : Nat) (i : Int) (suma : ℚ), (fin + 1 - i).toNat = m →
      TrapecioPool.CalcularConPool.bucle f a h fin i suma
        = suma + ∑ j ∈ Finset.Icc i fin, f (a + (j : ℚ) * h) := by
  intro m
  induction m with
  | zero =>
    intro i suma hm
    have hlt : fin < i := by omega
    rw [TrapecioPool.CalcularConPool.bucle, if_neg (not_le.mpr hlt),
      Finset.Icc_eq_empty_of_lt hlt]
    simp
  | succ m ih =>
    intro i suma hm
    have hle : i ≤ fin := by omega
    rw [TrapecioPool.CalcularConPool.bucle, if_pos hle, ih (i + 1) _ (by omega)]
    have hsplit : Finset.Icc i fin = insert i (Finset.Icc (i + 1) fin) := by
      ext x
      simp only [Finset.mem_Icc, Finset.mem_insert]
      omega
    rw [hsplit, Finset.sum_insert (by simp), add_assoc]

/-! ## The partition of the interior indices -/

/-- Truncating division agrees with floor division on the inputs of the claims, the block
size is not negative, and the blocks before the last one end at or before `n - 1`. -/
theorem bloque_cotas (n k : Int) (hn : 1 ≤ n) (hk : 1 ≤ k) :
    0 ≤ n.tdiv k ∧ (k - 1) * n.tdiv k ≤ n - 1 ∧ k * n.tdiv k ≤ n := by
  have hdiv : n.tdiv k = n / k := Int.tdiv_eq_ediv (by omega) (by omega)
  rw [hdiv]
  have h0 : 0 ≤ n / k := Int.ediv_nonneg (by omega) (by omega)
  have h1 : k * (n / k) ≤ n := Int.mul_ediv_self_le (by omega)
  refine ⟨h0, ?_, h1⟩
  rcases h0.eq_or_lt with h | h
  · rw [← h]; simp; omega
  · have : (k - 1) * (n / k) = k * (n / k) - n / k := by ring
    omega

/-- The blocks `[t*B + 1, (t+1)*B]` for `t < m` add up to the sum over `[1, m*B]`. -/
theorem suma_bloques (g : ℤ → ℚ) (B : Int) (hB : 0 ≤ B) (m : Nat) :
    ((List.range m).map fun t : Nat =>
        ∑ j ∈ Finset.Icc ((t : Int) * B + 1) (((t : Int) + 1) * B), g j).sum
      = ∑ j ∈ Finset.Icc (1 : ℤ) ((m : Int) * B), g j := by
  induction m with
  | zero => simp
  | succ m ih =>
    rw [List.range_succ, List.map_append, List.sum_append, ih]
    simp only [List.map_cons, List.map_nil, List.sum_cons, List.sum_nil, add_zero]
    have hmB : 0 ≤ (m : Int) * B := mul_nonneg (by omega) hB
    have hunion : Finset.Icc (1 : ℤ) (((m + 1 : Nat) : Int) * B)
        = Finset.Icc (1 : ℤ) ((m : Int) * B)
            ∪ Finset.Icc ((m : Int) * B + 1) (((m : Int) + 1) * B) := by
      ext x
      simp only [Finset.mem_Icc, Finset.mem_union]
      have e : ((m + 1 : Nat) : Int) * B = (m : Int) * B + B := by push_cast; ring
      have e2 : ((m : Int) + 1) * B = (m : Int) * B + B := by ring
      rw [e, e2]
      omega
    have hdisj : Disjoint (Finset.Icc (1 : ℤ) ((m : Int) * B))
        (Finset.Icc ((m : Int) * B + 1) (((m : Int) + 1) * B)) := by
      rw [Finset.disjoint_left]
      intro x hx hx2
      simp only [Finset.mem_Icc] at hx hx2
      omega
    rw [hunion, Finset.sum_union hdisj]

/-- Last block: `[1, (k-1)*B]` and `[(k-1)*B + 1, n-1]` add up to `[1, n-1]`. -/
theorem suma_ultimo (g : ℤ → ℚ) (c n : Int) (h0 : 0 ≤ c) (hc : c ≤ n - 1) :
    ∑ j ∈ Finset.Icc (1 : ℤ) c, g j + ∑ j ∈ Finset.Icc (c + 1) (n - 1), g j
      = ∑ j ∈ Finset.Icc (1 : ℤ) (n - 1), g j := by
  have hunion : Finset.Icc (1 : ℤ) (n - 1) = Finset.Icc (1 : ℤ) c ∪ Finset.Icc (c + 1) (n - 1) := by
    ext x
    simp only [Finset.mem_Icc, Finset.mem_union]
    omega
  have hdisj : Disjoint (Finset.Icc (1 : ℤ) c) (Finset.Icc (c + 1) (n - 1)) := by
    rw [Finset.disjoint_left]
    intro x hx hx2
    simp only [Finset.mem_Icc] at hx hx2
    omega
  rw [hunion, Finset.sum_union hdisj]

/-- Sum, over the tasks `0 .. K-1`, of the sums over `[t*B + 1, fin t]`, where `fin t` is
`(t+1)*B` for every task but the last and `n - 1` for the last: the sum over `[1, n-1]`. -/
theorem suma_particion (g : ℤ → ℚ) (n B : Int) (K : Nat) (hK : 1 ≤ K) (hB : 0 ≤ B)
    (hlast : ((K : Int) - 1) * B ≤ n - 1) (fin : Nat → Int)
    (hfin : ∀ t : Nat, t < K - 1 → fin t = ((t : Int) + 1) * B)
    (hfinK : fin (K - 1) = n - 1) :
    ((List.range K).map fun t : Nat => ∑ j ∈ Finset.Icc ((t : Int) * B + 1) (fin t), g j).sum
      = ∑ j ∈ Finset.Icc (1 : ℤ) (n - 1), g j := by
  obtain ⟨m, rfl⟩ : ∃ m, K = m + 1 := ⟨K - 1, by omega⟩
  rw [List.range_succ, List.map_append, List.sum_append]
  simp only [List.map_cons, List.map_nil, List.sum_cons, List.sum_nil, add_zero]
  have hpre : ((List.range m).map fun t : Nat =>
        ∑ j ∈ Finset.Icc ((t : Int) * B + 1) (fin t), g j)
      = (List.range m).map fun t : Nat =>
        ∑ j ∈ Finset.Icc ((t : Int) * B + 1) (((t : Int) + 1) * B), g j := by
    apply List.map_congr_left
    intro t ht
    rw [hfin t (by simpa using List.mem_range.mp ht)]
  have hm : ((m + 1 : Nat) : Int) - 1 = (m : Int) := by push_cast; ring
  rw [hm] at hlast
  have hfinK2 : fin m = n - 1 := by simpa using hfinK
  rw [hpre, suma_bloques g B hB m, hfinK2]
  exact suma_ultimo g _ n (mul_nonneg (by omega) hB) hlast

/-! ## The value of `integrar` and of `CalcularConPool` -/

theorem Trapecio.foldl_doble (l : List Trapecio.TrabajadorTrapecio) (init : ℚ) :
    l.foldl (fun suma trab => suma + 2 * trab.sumaParcial) init
      = init + 2 * (l.map fun trab => trab.sumaParcial).sum := by
  induction l generalizing init with
  | nil => simp
  | cons t l ih =>
    simp only [List.foldl_cons, List.map_cons, List.sum_cons, ih]
    ring

theorem TrapecioPool.foldl_suma (l : List ℚ) (init : ℚ) :
    l.foldl (fun suma resultado => suma + resultado) init = init + l.sum := by
  induction l generalizing init with
  | nil => simp
  | cons t l ih =>
    simp only [List.foldl_cons, List.sum_cons, ih]
    ring

/-- The partial sums of the workers of `integrar`, after their goroutines have finished, add
up to the sum of `f` over the interior points. -/
theorem Trapecio.suma_parciales (f : ℚ → ℚ) (a h : ℚ) (n k : Int) (hn : 1 ≤ n) (hk : 1 ≤ k) :
    (((Trapecio.integrar.trabajadores f a h n k (n.tdiv k)).map
        Trapecio.TrabajadorTrapecio.Calcular).map fun trab => trab.sumaParcial).sum
      = ∑ j ∈ Finset.Icc (1 : ℤ) (n - 1), f (a + (j : ℚ) * h) := by
  obtain ⟨hB, hlast, -⟩ := bloque_cotas n k hn hk
  obtain ⟨K, rfl⟩ : ∃ K : Nat, k = (K : Int) := ⟨k.toNat, by omega⟩
  have hK : 1 ≤ K := by omega
  have hmap : ((Trapecio.integrar.trabajadores f a h n K (n.tdiv K)).map
        Trapecio.TrabajadorTrapecio.Calcular).map (fun trab => trab.sumaParcial)
      = (List.range K).map fun t : Nat =>
          ∑ j ∈ Finset.Icc ((t : Int) * n.tdiv K + 1)
            (Trapecio.integrar.fin n K (n.tdiv K) t), f (a + (j : ℚ) * h) := by
    simp only [Trapecio.integrar.trabajadores, Trapecio.integrar.rangos, List.map_map,
      Int.toNat_ofNat]
    apply List.map_congr_left
    intro t _
    simp only [Function.comp, Trapecio.TrabajadorTrapecio.Calcular]
    rw [Trapecio.bucle_eq f a h _ _ _ _ rfl, zero_add, Trapecio.integrar.inicio]
  rw [hmap]
  apply suma_particion (fun j => f (a + (j : ℚ) * h)) n (n.tdiv K) K hK hB
  · exact hlast
  · intro t ht
    have hne : (t : Int) ≠ (K : Int) - 1 := by omega
    simp only [Trapecio.integrar.fin, Trapecio.integrar.inicio, if_pos hne]
    ring
  · have he : ((K - 1 : Nat) : Int) = (K : Int) - 1 := by omega
    simp [Trapecio.integrar.fin, he]

/-- The values the tasks of `CalcularConPool` deliver add up to the sum of `funcion` over the
interior points. -/
theorem TrapecioPool.suma_resultados (f : ℚ → ℚ) (a h : ℚ) (n k : Int) (hn : 1 ≤ n)
    (hk : 1 ≤ k) :
    (TrapecioPool.CalcularConPool.resultados f a h n k (n.tdiv k)).sum
      = ∑ j ∈ Finset.Icc (1 : ℤ) (n - 1), f (a + (j : ℚ) * h) := by
  obtain ⟨hB, hlast, -⟩ := bloque_cotas n k hn hk
  obtain ⟨K, rfl⟩ : ∃ K : Nat, k = (K : Int) := ⟨k.toNat, by omega⟩
  have hK : 1 ≤ K := by omega
  have hmap : TrapecioPool.CalcularConPool.resultados f a h n K (n.tdiv K)
      = (List.range K).map fun t : Nat =>
          ∑ j ∈ Finset.Icc ((t : Int) * n.tdiv K + 1)
            (TrapecioPool.CalcularConPool.end_ n K (n.tdiv K) t), f (a + (j : ℚ) * h) := by
    simp only [TrapecioPool.CalcularConPool.resultados, TrapecioPool.CalcularConPool.rangos,
      List.map_map, Int.toNat_ofNat]
    apply List.map_congr_left
    intro t _
    simp only [Function.comp]
    rw [TrapecioPool.bucle_pool_eq f a h _ _ _ _ rfl, zero_add, TrapecioPool.CalcularConPool.start]
  rw [hmap]
  apply suma_particion (fun j => f (a + (j : ℚ) * h)) n (n.tdiv K) K hK hB hlast
  · intro t ht
    have hne : (t : Int) ≠ (K : Int) - 1 := by omega
    simp only [TrapecioPool.CalcularConPool.end_, if_neg hne]
  · have he : ((K - 1 : Nat) : Int) = (K : Int) - 1 := by omega
    simp [TrapecioPool.CalcularConPool.end_, he]

/-- For `n ≥ 1` and `numGoroutines ≥ 1` a run of `integrar` does not panic, starts
`numGoroutines` goroutines and returns the composite trapezoidal value. -/
theorem Trapecio.ejecutar_eq (f : ℚ → ℚ) (a b : ℚ) (n k : Int) (hn : 1 ≤ n) (hk : 1 ≤ k) :
    ∃ ws : List Trapecio.TrabajadorTrapecio, ws.length = k.toNat ∧
      Trapecio.integrar.ejecutar f a b n k = some (ws, trapecioCompuesto f a b n) := by
  refine ⟨(Trapecio.integrar.trabajadores f a ((b - a) / (n : ℚ)) n k (n.tdiv k)).map
    Trapecio.TrabajadorTrapecio.Calcular,
    by simp [Trapecio.integrar.trabajadores, Trapecio.integrar.rangos], ?_⟩
  have h1 : ¬ k < 0 := by omega
  have h2 : ¬ k = 0 := by omega
  simp only [Trapecio.integrar.ejecutar, if_neg h1, if_neg h2, Trapecio.foldl_doble,
    Trapecio.suma_parciales f a _ n k hn hk, trapecioCompuesto]

theorem Trapecio.integrar_eq (f : ℚ → ℚ) (a b : ℚ) (n k : Int) (hn : 1 ≤ n) (hk : 1 ≤ k) :
    Trapecio.integrar f a b n k = some (trapecioCompuesto f a b n) := by
  obtain ⟨ws, -, h⟩ := Trapecio.ejecutar_eq f a b n k hn hk
  simp [Trapecio.integrar, h]

theorem TrapecioPool.CalcularConPool_eq (f : ℚ → ℚ) (a b : ℚ) (n k : Int) (hn : 1 ≤ n)
    (hk : 1 ≤ k) :
    TrapecioPool.CalcularConPool f a b n k = some (trapecioCompuesto f a b n) := by
  have h1 : ¬ k < 0 := by omega
  have h2 : ¬ k = 0 := by omega
  simp only [TrapecioPool.CalcularConPool, if_neg h1, if_neg h2, TrapecioPool.foldl_suma,
    TrapecioPool.suma_resultados f a _ n k hn hk, trapecioCompuesto]
  congr 1
  ring

/-! ## Coverage of the interior indices by the ranges -/

/-- Both programs compute the same ranges. -/
theorem rangos_pool_eq (n k B : Int) :
    TrapecioPool.CalcularConPool.rangos n k B = Trapecio.integrar.rangos n k B := by
  simp only [TrapecioPool.CalcularConPool.rangos, Trapecio.integrar.rangos]
  apply List.map_congr_left
  intro t _
  simp only [TrapecioPool.CalcularConPool.start, TrapecioPool.CalcularConPool.end_,
    Trapecio.integrar.inicio, Trapecio.integrar.fin]
  by_cases h : (t : Int) = k - 1
  · simp [h]
  · have h2 : (t : Int) ≠ k - 1 := h
    rw [if_neg h, if_pos h2]
    congr 1
    ring

/-- The ranges of `integrar` are those of the planner run with the block size of the code. -/
theorem rangos_eq_conBloque (n k B : Int) :
    Trapecio.integrar.rangos n k B = Plan.conBloque B n k := by
  simp only [Plan.conBloque, Trapecio.integrar.rangos]
  apply List.map_congr_left
  intro t _
  simp only [Trapecio.integrar.inicio, Trapecio.integrar.fin]
  by_cases h : (t : Int) = k - 1
  · simp [h]
  · have h2 : (t : Int) ≠ k - 1 := h
    rw [if_neg h, if_pos h2]
    congr 1
    ring

/-- In a list whose elements pairwise never satisfy `p` together, an element satisfying `p`
is the only one. -/
theorem countP_eq_one_of_pairwise {α : Type} (p : α → Prop) [DecidablePred p] (l : List α)
    (hpw : l.Pairwise fun x y => ¬ (p x ∧ p y)) (hex : ∃ x ∈ l, p x) :
    l.countP (fun x => decide (p x)) = 1 := by
  induction l with
  | nil => simp at hex
  | cons x l ih =>
    rw [List.pairwise_cons] at hpw
    by_cases hx : p x
    · have hnone : l.countP (fun y => decide (p y)) = 0 := by
        rw [List.countP_eq_zero]
        intro y hy
        have := hpw.1 y hy
        simp only [decide_eq_true_eq]
        tauto
      rw [List.countP_cons_of_pos _ _ (by simpa using hx), hnone]
    · have hex2 : ∃ y ∈ l, p y := by
        obtain ⟨y, hy, hpy⟩ := hex
        rcases List.mem_cons.mp hy with rfl | hy
        · exact absurd hpy hx
        · exact ⟨y, hy, hpy⟩
      rw [List.countP_cons_of_neg _ _ (by simpa using hx)]
      exact ih hpw.2 hex2

/-- The ranges of the planner run with a block size `B ≥ 0` such that `(k-1)*B ≤ n-1`:
pairwise disjoint, inside `[1, n-1]`, and covering `[1, n-1]`. -/
theorem conBloque_cubre (n k B : Int) (hk : 1 ≤ k) (hB : 0 ≤ B) (hlast : (k - 1) * B ≤ n - 1) :
    (Plan.conBloque B n k).Pairwise (fun r s => ∀ i : Int, ¬ (enRango i r ∧ enRango i s)) ∧
    (∀ r ∈ Plan.conBloque B n k, ∀ i : Int, enRango i r → 1 ≤ i ∧ i ≤ n - 1) ∧
    (∀ i : Int, 1 ≤ i → i ≤ n - 1 → ∃ r ∈ Plan.conBloque B n k, enRango i r) := by
  refine ⟨?_, ?_, ?_⟩
  · rw [Plan.conBloque, List.pairwise_map]
    refine (List.pairwise_lt_range k.toNat).imp_of_mem ?_
    intro s t hs ht hst i ⟨⟨_, h2⟩, ⟨h3, _⟩⟩
    have htk : (t : Int) < k := by have := List.mem_range.mp ht; omega
    have hne : ¬ (s : Int) = k - 1 := by omega
    simp only [if_neg hne] at h2
    simp only at h3
    have hmono : ((s : Int) + 1) * B ≤ (t : Int) * B :=
      mul_le_mul_of_nonneg_right (by omega) hB
    omega
  · intro r hr i hi
    simp only [Plan.conBloque, List.mem_map, List.mem_range] at hr
    obtain ⟨t, ht, rfl⟩ := hr
    obtain ⟨h1, h2⟩ := hi
    simp only at h1 h2
    have htB : 0 ≤ (t : Int) * B := mul_nonneg (by omega) hB
    refine ⟨by omega, ?_⟩
    by_cases hl : (t : Int) = k - 1
    · simpa [hl] using h2
    · simp only [if_neg hl] at h2
      have hmono : ((t : Int) + 1) * B ≤ (k - 1) * B :=
        mul_le_mul_of_nonneg_right (by omega) hB
      omega
  · intro i h1 h2
    simp only [Plan.conBloque, List.mem_map, List.mem_range]
    by_cases hq : (i - 1) / B < k - 1 ∧ 0 < B
    · obtain ⟨hq, hpos⟩ := hq
      have hq0 : 0 ≤ (i - 1) / B := Int.ediv_nonneg (by omega) hB
      have hlo : (i - 1) / B * B ≤ i - 1 := Int.ediv_mul_le _ (by omega)
      have hhi : i - 1 < ((i - 1) / B + 1) * B := Int.lt_ediv_add_one_mul_self _ hpos
      have hcast : ((((i - 1) / B).toNat : Nat) : Int) = (i - 1) / B := Int.toNat_of_nonneg hq0
      have hne : ¬ (i - 1) / B = k - 1 := by omega
      refine ⟨_, ⟨((i - 1) / B).toNat, by omega, rfl⟩, ?_⟩
      rw [hcast, if_neg hne]
      exact ⟨by simp only; omega, by simp only; omega⟩
    · have hcast : (((k - 1).toNat : Nat) : Int) = k - 1 := Int.toNat_of_nonneg (by omega)
      refine ⟨_, ⟨(k - 1).toNat, by omega, rfl⟩, ?_⟩
      rw [hcast, if_pos rfl]
      refine ⟨?_, h2⟩
      simp only
      rcases hB.eq_or_lt with h | hpos
      · rw [← h]; simp; omega
      · have hq2 : k - 1 ≤ (i - 1) / B := by
          by_contra hc
          exact hq ⟨by omega, hpos⟩
        have hlo : (i - 1) / B * B ≤ i - 1 := Int.ediv_mul_le _ (by omega)
        have hmono : (k - 1) * B ≤ (i - 1) / B * B :=
          mul_le_mul_of_nonneg_right hq2 hB
        omega

theorem conBloque_cubreInterior (n k : Int) (hn : 1 ≤ n) (hk : 1 ≤ k) :
    CubreInterior n (Plan.conBloque (n.tdiv k) n k) := by
  obtain ⟨hB, hlast, -⟩ := bloque_cotas n k hn hk
  obtain ⟨hpw, hin, hcov⟩ := conBloque_cubre n k (n.tdiv k) hk hB hlast
  exact ⟨hpw, fun i h1 h2 => countP_eq_one_of_pairwise (enRango i) _ (hpw.imp fun h => h i)
    (hcov i h1 h2), hin⟩

/-- The deliveries on `resultados` add up to the same value in every order of arrival. -/
theorem resultados_orden_irrelevante (l l2 : List ℚ) (hperm : l.Perm l2) (init : ℚ) :
    l.foldl (fun suma resultado => suma + resultado) init
      = l2.foldl (fun suma resultado => suma + resultado) init := by
  rw [TrapecioPool.foldl_suma, TrapecioPool.foldl_suma, hperm.sum_eq]

/-! ## The claims on the value computed -/

/-- C1: for every evaluator `f`, every `a`, `b`, every `n ≥ 1` and every `numGoroutines ≥ 1`,
`integrar(f, a, b, n, numGoroutines)`, over exact arithmetic and with the partial sums read
after all goroutines have finished, returns the composite trapezoidal value
`(h/2) * (f(a) + f(b) + 2 * Σ_{i=1}^{n-1} f(a + i*h))` with `h = (b - a)/n`. -/
theorem C1_integrar_es_trapecio_compuesto (f : ℚ → ℚ) (a b : ℚ) (n numGoroutines : Int)
    (hn : 1 ≤ n) (hk : 1 ≤ numGoroutines) :
    Trapecio.integrar f a b n numGoroutines
      = some ((((b - a) / (n : ℚ)) / 2) *
          (f a + f b
            + 2 * ∑ i ∈ Finset.Icc (1 : ℤ) (n - 1), f (a + (i : ℚ) * ((b - a) / (n : ℚ))))) :=
  Trapecio.integrar_eq f a b n numGoroutines hn hk

/-- C1 at `f(x) = x*x` on `[0, 3]` with three subintervals and two goroutines. -/
theorem C1_witness :
    (1 : Int) ≤ 3 ∧ (1 : Int) ≤ 2 ∧
    Trapecio.integrar (fun x => x * x) 0 3 3 2
      = some ((((3 - 0 : ℚ) / ((3 : Int) : ℚ)) / 2) *
          ((fun x : ℚ => x * x) 0 + (fun x : ℚ => x * x) 3
            + 2 * ∑ i ∈ Finset.Icc (1 : ℤ) (3 - 1),
                (fun x : ℚ => x * x) (0 + (i : ℚ) * ((3 - 0 : ℚ) / ((3 : Int) : ℚ))))) :=
  ⟨by decide, by decide,
    C1_integrar_es_trapecio_compuesto (fun x => x * x) 0 3 3 2 (by decide) (by decide)⟩

/-- C2: for every `f`, `a`, `b`, every `n ≥ 1` and every two task counts `k1 ≥ 1`, `k2 ≥ 1`,
`integrar(f, a, b, n, k1)` and `integrar(f, a, b, n, k2)` return the same value, and
`CalcularConPool` returns the same value for `numTareas = k1` as for `numTareas = k2`
(exact arithmetic). -/
theorem C2_independiente_de_la_concurrencia (f : ℚ → ℚ) (a b : ℚ) (n k1 k2 : Int)
    (hn : 1 ≤ n) (hk1 : 1 ≤ k1) (hk2 : 1 ≤ k2) :
    (∃ v : ℚ, Trapecio.integrar f a b n k1 = some v ∧ Trapecio.integrar f a b n k2 = some v) ∧
    (∃ w : ℚ, TrapecioPool.CalcularConPool f a b n k1 = some w ∧
      TrapecioPool.CalcularConPool f a b n k2 = some w) :=
  ⟨⟨_, Trapecio.integrar_eq f a b n k1 hn hk1, Trapecio.integrar_eq f a b n k2 hn hk2⟩,
    ⟨_, TrapecioPool.CalcularConPool_eq f a b n k1 hn hk1,
      TrapecioPool.CalcularConPool_eq f a b n k2 hn hk2⟩⟩

/-- C2 at the test polynomial on `[2, 20]`, `n = 100`, one task against eight. -/
theorem C2_witness :
    (1 : Int) ≤ 100 ∧ (1 : Int) ≤ 1 ∧ (1 : Int) ≤ 8 ∧
    (∃ v : ℚ, Trapecio.integrar Trapecio.FuncionEjemplo.Evaluar 2 20 100 1 = some v ∧
      Trapecio.integrar Trapecio.FuncionEjemplo.Evaluar 2 20 100 8 = some v) ∧
    (∃ w : ℚ, TrapecioPool.CalcularConPool Trapecio.FuncionEjemplo.Evaluar 2 20 100 1 = some w ∧
      TrapecioPool.CalcularConPool Trapecio.FuncionEjemplo.Evaluar 2 20 100 8 = some w) :=
  ⟨by decide, by decide, by decide,
    C2_independiente_de_la_concurrencia Trapecio.FuncionEjemplo.Evaluar 2 20 100 1 8
      (by decide) (by decide) (by decide)⟩

/-- C3: for every `n` and `numTasks` with `1 ≤ numTasks ≤ n-1`, the inclusive ranges
`[inicio, fin]` that `integrar` assigns to the tasks `0 .. numTasks-1`, and those
`CalcularConPool` assigns, are pairwise disjoint, every index of `1 .. n-1` lies in exactly
one of them, and no range contains an index outside `1 .. n-1`. -/
theorem C3_los_rangos_cubren_el_interior (n numTasks : Int) (h1 : 1 ≤ numTasks)
    (h2 : numTasks ≤ n - 1) :
    CubreInterior n (Trapecio.integrar.rangos n numTasks (n.tdiv numTasks)) ∧
    CubreInterior n (TrapecioPool.CalcularConPool.rangos n numTasks (n.tdiv numTasks)) := by
  rw [rangos_pool_eq, rangos_eq_conBloque]
  exact ⟨conBloque_cubreInterior n numTasks (by omega) h1,
    conBloque_cubreInterior n numTasks (by omega) h1⟩

/-- C3 at `n = 10` and three tasks. -/
theorem C3_witness :
    (1 : Int) ≤ 3 ∧ (3 : Int) ≤ 10 - 1 ∧
    CubreInterior 10 (Trapecio.integrar.rangos 10 3 (Int.tdiv 10 3)) ∧
    CubreInterior 10 (TrapecioPool.CalcularConPool.rangos 10 3 (Int.tdiv 10 3)) :=
  ⟨by decide, by decide, C3_los_rangos_cubren_el_interior 10 3 (by decide) (by decide)⟩

/-- C4, as the spec states it, fails: for `n = 4` and two tasks the code computes the block
size `4/2 = 2` and the ranges `[1,2]`, `[3,3]`, while the spec's planner computes the block
size `(4-1)/2 = 1` and the ranges `[1,1]`, `[2,3]`. -/
theorem C4_contraejemplo :
    Trapecio.integrar.rangos 4 2 (Int.tdiv 4 2) = [(1, 2), (3, 3)] ∧
    TrapecioPool.CalcularConPool.rangos 4 2 (Int.tdiv 4 2) = [(1, 2), (3, 3)] ∧
    Plan 4 2 = [(1, 1), (2, 3)] ∧
    Trapecio.integrar.rangos 4 2 (Int.tdiv 4 2) ≠ Plan 4 2 := by
  decide

/-- C4, amended: for every `n ≥ 1` and `numTasks ≥ 1`, with `blockSize = n/numTasks`
(truncating integer division: `numTasks*blockSize ≤ n < numTasks*(blockSize+1)`), task `i` in
`0 .. numTasks-1` gets `start = i*blockSize + 1`, and `end = (i+1)*blockSize` for every task
but the last, whose `end = n-1`; this holds for `integrar` and for `CalcularConPool`. -/
theorem C4_los_rangos_son_los_del_plan_con_bloque_n (n numTasks : Int) (hn : 1 ≤ n)
    (hk : 1 ≤ numTasks) :
    (numTasks * n.tdiv numTasks ≤ n ∧ n < numTasks * (n.tdiv numTasks + 1)) ∧
    Trapecio.integrar.rangos n numTasks (n.tdiv numTasks)
      = Plan.conBloque (n.tdiv numTasks) n numTasks ∧
    TrapecioPool.CalcularConPool.rangos n numTasks (n.tdiv numTasks)
      = Plan.conBloque (n.tdiv numTasks) n numTasks ∧
    (Plan.conBloque (n.tdiv numTasks) n numTasks).length = numTasks.toNat := by
  have hdiv : n.tdiv numTasks = n / numTasks := Int.tdiv_eq_ediv (by omega) (by omega)
  have hlt : n < (n / numTasks + 1) * numTasks := Int.lt_ediv_add_one_mul_self n (by omega)
  rw [rangos_pool_eq, rangos_eq_conBloque]
  refine ⟨⟨(bloque_cotas n numTasks hn hk).2.2, ?_⟩, rfl, rfl, by simp [Plan.conBloque]⟩
  rw [hdiv, mul_comm]
  exact hlt

/-- C4 amended, at `n = 4` and two tasks. -/
theorem C4_witness :
    (1 : Int) ≤ 4 ∧ (1 : Int) ≤ 2 ∧
    ((2 : Int) * Int.tdiv 4 2 ≤ 4 ∧ (4 : Int) < 2 * (Int.tdiv 4 2 + 1)) ∧
    Trapecio.integrar.rangos 4 2 (Int.tdiv 4 2) = Plan.conBloque (Int.tdiv 4 2) 4 2 ∧
    TrapecioPool.CalcularConPool.rangos 4 2 (Int.tdiv 4 2) = Plan.conBloque (Int.tdiv 4 2) 4 2 ∧
    (Plan.conBloque (Int.tdiv 4 2) 4 2).length = (2 : Int).toNat :=
  ⟨by decide, by decide,
    C4_los_rangos_son_los_del_plan_con_bloque_n 4 2 (by decide) (by decide)⟩

/-- C8: for every `f`, `a`, `b`, `integrar(f, a, b, 1, 1)` returns the two-point trapezoidal
estimate `(h/2) * (f(a) + f(b))` with `h = b - a`; the single task has the empty range
`inicio = 1 > fin = 0`, its loop evaluates `f` at no point (it returns its accumulator
unchanged) and its partial sum is exactly `0`. -/
theorem C8_un_solo_trapecio (f : ℚ → ℚ) (a b : ℚ) :
    Trapecio.integrar f a b 1 1 = some (((b - a) / 2) * (f a + f b)) ∧
    (∃ w : Trapecio.TrabajadorTrapecio,
      Trapecio.integrar.ejecutar f a b 1 1 = some ([w], ((b - a) / 2) * (f a + f b)) ∧
      w.inicio = 1 ∧ w.fin = 0 ∧ w.sumaParcial = 0) ∧
    (∀ suma : ℚ, Trapecio.TrabajadorTrapecio.bucle f a (b - a) 0 1 suma = suma) := by
  have hb : ∀ h suma : ℚ, Trapecio.TrabajadorTrapecio.bucle f a h 0 1 suma = suma := by
    intro h suma
    rw [Trapecio.TrabajadorTrapecio.bucle, if_neg (by decide)]
  have hr : Trapecio.integrar.rangos 1 1 1 = [(1, 0)] := by decide
  have he : Trapecio.integrar.ejecutar f a b 1 1
      = some ([{ f := f, a := a, h := (b - a) / ((1 : Int) : ℚ), inicio := 1, fin := 0,
                  sumaParcial := 0 }], ((b - a) / 2) * (f a + f b)) := by
    simp [Trapecio.integrar.ejecutar, Trapecio.integrar.trabajadores, hr,
      Trapecio.TrabajadorTrapecio.Calcular, hb]
  refine ⟨by simp [Trapecio.integrar, he], ⟨_, he, rfl, rfl, rfl⟩, hb _⟩

/-- C9: for every `f`, `a`, `b`, every `n ≥ 1` and every task count `k ≥ 1`,
`CalcularConPool` on a `TrapecioPool{f, a, b}` with `numTareas = k` returns the same value
as `integrar(f, a, b, n, k)` (exact arithmetic). -/
theorem C9_las_dos_variantes_coinciden (f : ℚ → ℚ) (a b : ℚ) (n k : Int) (hn : 1 ≤ n)
    (hk : 1 ≤ k) :
    ∃ v : ℚ, TrapecioPool.CalcularConPool f a b n k = some v ∧
      Trapecio.integrar f a b n k = some v :=
  ⟨_, TrapecioPool.CalcularConPool_eq f a b n k hn hk, Trapecio.integrar_eq f a b n k hn hk⟩

/-- C9 at the test polynomial on `[2, 20]`, `n = 10`, sixteen tasks. -/
theorem C9_witness :
    (1 : Int) ≤ 10 ∧ (1 : Int) ≤ 16 ∧
    ∃ v : ℚ, TrapecioPool.CalcularConPool Trapecio.FuncionEjemplo.Evaluar 2 20 10 16 = some v ∧
      Trapecio.integrar Trapecio.FuncionEjemplo.Evaluar 2 20 10 16 = some v :=
  ⟨by decide, by decide,
    C9_las_dos_variantes_coinciden Trapecio.FuncionEjemplo.Evaluar 2 20 10 16
      (by decide) (by decide)⟩

/-! ## The test polynomial on `[2, 20]` -/

/-- Closed form of the interior sum of the test polynomial on a grid that starts at `2`. -/
theorem suma_ejemplo (h : ℚ) (m : Nat) :
    ∑ i ∈ Finset.Icc (1 : ℤ) (m : ℤ), Trapecio.FuncionEjemplo.Evaluar (2 + (i : ℚ) * h)
      = 29 / 2 * (m : ℚ) + 11 * h * ((m : ℚ) * (m + 1) / 2)
        + 2 * h ^ 2 * ((m : ℚ) * (m + 1) * (2 * m + 1) / 6) := by
  induction m with
  | zero => simp
  | succ m ih =>
    have hsplit : Finset.Icc (1 : ℤ) ((m + 1 : Nat) : ℤ)
        = insert (((m + 1 : Nat) : ℤ)) (Finset.Icc (1 : ℤ) (m : ℤ)) := by
      ext x
      simp only [Finset.mem_Icc, Finset.mem_insert]
      omega
    rw [hsplit, Finset.sum_insert (by simp), ih]
    simp only [Trapecio.FuncionEjemplo.Evaluar]
    push_cast
    ring

/-- On the test polynomial and `[2, 20]` the composite trapezoidal value with `n ≥ 1`
subintervals is `5931 + 1944/n²`. -/
theorem trapecio_ejemplo (n : Int) (hn : 1 ≤ n) :
    trapecioCompuesto Trapecio.FuncionEjemplo.Evaluar 2 20 n = 5931 + 1944 / (n : ℚ) ^ 2 := by
  obtain ⟨m, rfl⟩ : ∃ m : Nat, n = ((m + 1 : Nat) : Int) := ⟨(n - 1).toNat, by omega⟩
  have hm : (((m + 1 : Nat) : Int) - 1) = (m : Int) := by push_cast; ring
  rw [trapecioCompuesto, hm, suma_ejemplo]
  have hpos : ((m : ℚ) + 1) ≠ 0 := by positivity
  simp only [Trapecio.FuncionEjemplo.Evaluar]
  push_cast
  field_simp
  ring

/-- C6: for the test polynomial `f(x) = 2x² + 3x + 0.5` on `[2, 20]`, whose exact integral is
`5931`, `integrar(f, 2, 20, 10000, k)` returns, for every `k ≥ 1`, a value that differs from
`5931` by less than `1e-3` in absolute value (exact arithmetic). -/
theorem C6_error_menor_que_una_milesima (k : Int) (hk : 1 ≤ k) :
    ∃ v : ℚ, Trapecio.integrar Trapecio.FuncionEjemplo.Evaluar 2 20 10000 k = some v ∧
      |v - 5931| < 1 / 1000 := by
  refine ⟨_, Trapecio.integrar_eq _ 2 20 10000 k (by decide) hk, ?_⟩
  rw [trapecio_ejemplo 10000 (by decide)]
  norm_num [abs_lt]

/-- C6 with the four goroutines of `main`. -/
theorem C6_witness :
    (1 : Int) ≤ 4 ∧
    ∃ v : ℚ, Trapecio.integrar Trapecio.FuncionEjemplo.Evaluar 2 20 10000 4 = some v ∧
      |v - 5931| < 1 / 1000 :=
  ⟨by decide, C6_error_menor_que_una_milesima 4 (by decide)⟩

/-- C7: for the test polynomial on `[2, 20]` and any fixed `k ≥ 1`, the absolute error
`|integrar(f, 2, 20, n, k) - 5931|` does not increase as `n` runs through `100`, `1000`,
`10000`, `100000` (exact arithmetic). -/
theorem C7_error_no_creciente (k : Int) (hk : 1 ≤ k) :
    ∃ v1 v2 v3 v4 : ℚ,
      Trapecio.integrar Trapecio.FuncionEjemplo.Evaluar 2 20 100 k = some v1 ∧
      Trapecio.integrar Trapecio.FuncionEjemplo.Evaluar 2 20 1000 k = some v2 ∧
      Trapecio.integrar Trapecio.FuncionEjemplo.Evaluar 2 20 10000 k = some v3 ∧
      Trapecio.integrar Trapecio.FuncionEjemplo.Evaluar 2 20 100000 k = some v4 ∧
      |v2 - 5931| ≤ |v1 - 5931| ∧ |v3 - 5931| ≤ |v2 - 5931| ∧ |v4 - 5931| ≤ |v3 - 5931| := by
  refine ⟨_, _, _, _, Trapecio.integrar_eq _ 2 20 100 k (by decide) hk,
    Trapecio.integrar_eq _ 2 20 1000 k (by decide) hk,
    Trapecio.integrar_eq _ 2 20 10000 k (by decide) hk,
    Trapecio.integrar_eq _ 2 20 100000 k (by decide) hk, ?_⟩
  rw [trapecio_ejemplo 100 (by decide), trapecio_ejemplo 1000 (by decide),
    trapecio_ejemplo 10000 (by decide), trapecio_ejemplo 100000 (by decide)]
  norm_num [abs_of_pos]

/-- C7 with the four goroutines of `main`. -/
theorem C7_witness :
    (1 : Int) ≤ 4 ∧
    ∃ v1 v2 v3 v4 : ℚ,
      Trapecio.integrar Trapecio.FuncionEjemplo.Evaluar 2 20 100 4 = some v1 ∧
      Trapecio.integrar Trapecio.FuncionEjemplo.Evaluar 2 20 1000 4 = some v2 ∧
      Trapecio.integrar Trapecio.FuncionEjemplo.Evaluar 2 20 10000 4 = some v3 ∧
      Trapecio.integrar Trapecio.FuncionEjemplo.Evaluar 2 20 100000 4 = some v4 ∧
      |v2 - 5931| ≤ |v1 - 5931| ∧ |v3 - 5931| ≤ |v2 - 5931| ∧ |v4 - 5931| ≤ |v3 - 5931| :=
  ⟨by decide, C7_error_no_creciente 4 (by decide)⟩

/-! ## Arguments outside the contract -/

/-- For `n < 0` and `k ≥ 1` the truncated block size is not positive and the last range
starts above `n - 1`. -/
theorem bloque_cotas_neg (n k : Int) (hn : n < 0) (hk : 1 ≤ k) :
    n.tdiv k ≤ 0 ∧ n ≤ (k - 1) * n.tdiv k := by
  have hdiv : n.tdiv k = -((-n) / k) := by
    rw [← Int.tdiv_eq_ediv (by omega) (by omega), Int.neg_tdiv, neg_neg]
  have h0 : 0 ≤ (-n) / k := Int.ediv_nonneg (by omega) (by omega)
  have h1 : k * ((-n) / k) ≤ -n := Int.mul_ediv_self_le (by omega)
  rw [hdiv]
  refine ⟨by omega, ?_⟩
  have : (k - 1) * -((-n) / k) = -(k * ((-n) / k)) + (-n) / k := by ring
  omega

/-- For `n < 0` and `k ≥ 1` every range of `integrar` is empty. -/
theorem Trapecio.rangos_vacios_neg (n k : Int) (hn : n < 0) (hk : 1 ≤ k) :
    ∀ r ∈ Trapecio.integrar.rangos n k (n.tdiv k), r.2 < r.1 := by
  obtain ⟨hB, hlast⟩ := bloque_cotas_neg n k hn hk
  intro r hr
  simp only [Trapecio.integrar.rangos, List.mem_map, List.mem_range] at hr
  obtain ⟨t, -, rfl⟩ := hr
  simp only [Trapecio.integrar.inicio, Trapecio.integrar.fin]
  by_cases hl : (t : Int) = k - 1
  · rw [if_neg (by simpa using hl), hl]
    omega
  · rw [if_pos hl]
    omega

/-- A worker started on an empty range finishes with the partial sum `0`. -/
theorem Trapecio.Calcular_vacio (f : ℚ → ℚ) (a h : ℚ) (r : Int × Int) (hr : r.2 < r.1) :
    (Trapecio.TrabajadorTrapecio.Calcular
      { f := f, a := a, h := h, inicio := r.1, fin := r.2, sumaParcial := 0 }).sumaParcial
      = 0 := by
  simp only [Trapecio.TrabajadorTrapecio.Calcular]
  rw [Trapecio.TrabajadorTrapecio.bucle, if_neg (not_le.mpr hr)]

/-- For `n < 0` and `numGoroutines ≥ 1` a run of `integrar` does not panic, starts
`numGoroutines` goroutines, all on empty ranges, and returns `(h/2) * (f(a) + f(b))`. -/
theorem Trapecio.ejecutar_neg (f : ℚ → ℚ) (a b : ℚ) (n k : Int) (hn : n < 0) (hk : 1 ≤ k) :
    ∃ ws : List Trapecio.TrabajadorTrapecio, ws.length = k.toNat ∧
      (∀ w ∈ ws, w.fin < w.inicio ∧ w.sumaParcial = 0) ∧
      Trapecio.integrar.ejecutar f a b n k
        = some (ws, ((b - a) / (n : ℚ)) / 2 * (f a + f b)) := by
  have hws : ∀ w ∈ (Trapecio.integrar.trabajadores f a ((b - a) / (n : ℚ)) n k (n.tdiv k)).map
      Trapecio.TrabajadorTrapecio.Calcular, w.fin < w.inicio ∧ w.sumaParcial = 0 := by
    intro w hw
    simp only [Trapecio.integrar.trabajadores, List.map_map, List.mem_map,
      Function.comp] at hw
    obtain ⟨r, hr, rfl⟩ := hw
    have hv := Trapecio.rangos_vacios_neg n k hn hk r hr
    exact ⟨hv, Trapecio.Calcular_vacio f a _ r hv⟩
  refine ⟨_, by simp [Trapecio.integrar.trabajadores, Trapecio.integrar.rangos], hws, ?_⟩
  have h1 : ¬ k < 0 := by omega
  have h2 : ¬ k = 0 := by omega
  have hsum : (((Trapecio.integrar.trabajadores f a ((b - a) / (n : ℚ)) n k (n.tdiv k)).map
      Trapecio.TrabajadorTrapecio.Calcular).map fun trab => trab.sumaParcial).sum = 0 := by
    apply List.sum_eq_zero
    intro x hx
    obtain ⟨w, hw, rfl⟩ := List.mem_map.mp hx
    exact (hws w hw).2
  simp only [Trapecio.integrar.ejecutar, if_neg h1, if_neg h2, Trapecio.foldl_doble, hsum,
    mul_zero, add_zero]

/-- C5, as stated, fails: `integrar` on the test polynomial with `a = 20 ≥ b = 2`
(`n = 1`, one goroutine) reports no error, starts one task and returns `-7875`; with
`n = -1 ≤ 0` (`a = 2`, `b = 20`, one goroutine) it reports no error, starts one task and
returns `-7875`. -/
theorem C5_contraejemplo :
    ((2 : ℚ) ≤ 20 ∧
      ∃ ws : List Trapecio.TrabajadorTrapecio, ws.length = 1 ∧
        Trapecio.integrar.ejecutar Trapecio.FuncionEjemplo.Evaluar 20 2 1 1
          = some (ws, -7875)) ∧
    ((-1 : Int) ≤ 0 ∧
      ∃ ws : List Trapecio.TrabajadorTrapecio, ws.length = 1 ∧
        Trapecio.integrar.ejecutar Trapecio.FuncionEjemplo.Evaluar 2 20 (-1) 1
          = some (ws, -7875)) := by
  refine ⟨⟨by norm_num, ?_⟩, ⟨by decide, ?_⟩⟩
  · obtain ⟨ws, hlen, he⟩ :=
      Trapecio.ejecutar_eq Trapecio.FuncionEjemplo.Evaluar 20 2 1 1 (by decide) (by decide)
    refine ⟨ws, by simpa using hlen, ?_⟩
    rw [he]
    norm_num [trapecioCompuesto, Trapecio.FuncionEjemplo.Evaluar]
  · obtain ⟨ws, hlen, -, he⟩ :=
      Trapecio.ejecutar_neg Trapecio.FuncionEjemplo.Evaluar 2 20 (-1) 1 (by decide) (by decide)
    refine ⟨ws, by simpa using hlen, ?_⟩
    rw [he]
    norm_num [Trapecio.FuncionEjemplo.Evaluar]

/-- C5, amended: `integrar` checks none of its arguments.  With `numGoroutines ≤ 0` the call
is cut short by a run-time panic before any task is started.  With `numGoroutines ≥ 1` it
reports no error: for `n ≥ 1` it starts `numGoroutines` tasks and returns the composite
trapezoidal value for every `a` and `b`, also when `a ≥ b`; for `n < 0` (above the least
64-bit `int`, so that `n - 1` does not wrap) it starts `numGoroutines` tasks, all on empty
ranges, and returns `(h/2) * (f(a) + f(b))`. -/
theorem C5_integrar_no_valida (f : ℚ → ℚ) (a b : ℚ) (n numGoroutines : Int) :
    (numGoroutines ≤ 0 → Trapecio.integrar.ejecutar f a b n numGoroutines = none ∧
      Trapecio.integrar f a b n numGoroutines = none) ∧
    (1 ≤ numGoroutines → 1 ≤ n →
      ∃ ws : List Trapecio.TrabajadorTrapecio, ws.length = numGoroutines.toNat ∧
        Trapecio.integrar.ejecutar f a b n numGoroutines
          = some (ws, trapecioCompuesto f a b n)) ∧
    (1 ≤ numGoroutines → -(2 : Int) ^ 63 < n → n < 0 →
      ∃ ws : List Trapecio.TrabajadorTrapecio, ws.length = numGoroutines.toNat ∧
        (∀ w ∈ ws, w.fin < w.inicio ∧ w.sumaParcial = 0) ∧
        Trapecio.integrar.ejecutar f a b n numGoroutines
          = some (ws, ((b - a) / (n : ℚ)) / 2 * (f a + f b))) := by
  refine ⟨?_, fun hk hn => Trapecio.ejecutar_eq f a b n numGoroutines hn hk, ?_⟩
  · intro hk
    have he : Trapecio.integrar.ejecutar f a b n numGoroutines = none := by
      rcases hk.lt_or_eq with h | h
      · simp [Trapecio.integrar.ejecutar, h]
      · simp [Trapecio.integrar.ejecutar, h]
    exact ⟨he, by simp [Trapecio.integrar, he]⟩
  · intro hk _ hn
    exact Trapecio.ejecutar_neg f a b n numGoroutines hn hk

/-- C5 amended, at no goroutine, at `a = 20 ≥ b = 2`, and at `n = -100`. -/
theorem C5_witness :
    (Trapecio.integrar.ejecutar Trapecio.FuncionEjemplo.Evaluar 2 20 100 0 = none ∧
      Trapecio.integrar Trapecio.FuncionEjemplo.Evaluar 2 20 100 0 = none) ∧
    (∃ ws : List Trapecio.TrabajadorTrapecio, ws.length = (4 : Int).toNat ∧
      Trapecio.integrar.ejecutar Trapecio.FuncionEjemplo.Evaluar 20 2 100 4
        = some (ws, trapecioCompuesto Trapecio.FuncionEjemplo.Evaluar 20 2 100)) ∧
    (∃ ws : List Trapecio.TrabajadorTrapecio, ws.length = (4 : Int).toNat ∧
      (∀ w ∈ ws, w.fin < w.inicio ∧ w.sumaParcial = 0) ∧
      Trapecio.integrar.ejecutar Trapecio.FuncionEjemplo.Evaluar 2 20 (-100) 4
        = some (ws, ((20 - 2 : ℚ) / (((-100 : Int)) : ℚ)) / 2 *
            (Trapecio.FuncionEjemplo.Evaluar 2 + Trapecio.FuncionEjemplo.Evaluar 20))) :=
  ⟨(C5_integrar_no_valida Trapecio.FuncionEjemplo.Evaluar 2 20 100 0).1 (by decide),
    (C5_integrar_no_valida Trapecio.FuncionEjemplo.Evaluar 20 2 100 4).2.1
      (by decide) (by decide),
    (C5_integrar_no_valida Trapecio.FuncionEjemplo.Evaluar 2 20 (-100) 4).2.2
      (by decide) (by decide) (by decide)⟩

/-! ## The thread pool: invariant, progress, termination -/

theorem count_set_getElem {α : Type} [DecidableEq α] (l : List α) (w : Nat) (a b c : α)
    (h : l[w]? = some a) :
    (l.set w b).count c + (if a = c then 1 else 0) = l.count c + (if b = c then 1 else 0) := by
  induction l generalizing w with
  | nil => simp at h
  | cons x l ih =>
    cases w with
    | zero =>
      simp only [List.getElem?_cons_zero, Option.some.injEq] at h
      subst h
      simp only [List.set_cons_zero, List.count_cons, beq_iff_eq]
      omega
    | succ w =>
      simp only [List.getElem?_cons_succ] at h
      have := ih w h
      simp only [List.set_cons_succ, List.count_cons]
      omega

theorem sum_map_set_getElem {α : Type} (f : α → Nat) (l : List α) (w : Nat) (a b : α)
    (h : l[w]? = some a) :
    ((l.set w b).map f).sum + f a = (l.map f).sum + f b := by
  induction l generalizing w with
  | nil => simp at h
  | cons x l ih =>
    cases w with
    | zero =>
      simp only [List.getElem?_cons_zero, Option.some.injEq] at h
      subst h
      simp only [List.set_cons_zero, List.map_cons, List.sum_cons]
      omega
    | succ w =>
      simp only [List.getElem?_cons_succ] at h
      have := ih w h
      simp only [List.set_cons_succ, List.map_cons, List.sum_cons]
      omega

theorem ThreadPool.NewThreadPool_inv (workers K : Nat) :
    ThreadPool.Inv workers K (ThreadPool.NewThreadPool workers) := by
  refine ⟨rfl, by simp [ThreadPool.NewThreadPool], ?_, ?_, ?_, ?_, ?_, rfl, ?_, ?_⟩
  · simp [ThreadPool.NewThreadPool, List.count_replicate]
  · intro i hi
    simp only [ThreadPool.NewThreadPool, ThreadPool.Productor.enviando.injEq] at hi
    subst hi
    exact ⟨rfl, Nat.zero_le _⟩
  · intro h
    simp [ThreadPool.NewThreadPool] at h
  · intro h
    simp [ThreadPool.NewThreadPool, List.count_replicate] at h
  · intro j
    simp [ThreadPool.NewThreadPool, ThreadPool.enviados, List.count_replicate]
  · intro e he
    simp [ThreadPool.NewThreadPool] at he
  · intro h
    simp [ThreadPool.NewThreadPool] at h

/-- Every step keeps the invariant and takes the measure down by one. -/
theorem ThreadPool.paso_inv (workers K : Nat) (s s2 : ThreadPool.Estado) (a : ThreadPool.Accion)
    (hinv : ThreadPool.Inv workers K s) (h : ThreadPool.paso K s a = some s2) :
    ThreadPool.Inv workers K s2 ∧ ThreadPool.medida K s = ThreadPool.medida K s2 + 1 := by
  obtain ⟨hcap, hlen, hwg, hab, hcerr, hterm, hcu, hcont, hq, hret⟩ := hinv
  cases a with
  | productor =>
    simp only [ThreadPool.paso] at h
    cases hp : s.productor with
    | enviando i =>
      rw [hp] at h
      obtain ⟨hc, hiK⟩ := hab i hp
      have hnoterm : ¬ 0 < s.trabajadores.count ThreadPool.Trabajador.terminado := by
        intro h0
        have := (hterm h0).1
        rw [hc] at this
        exact Bool.noConfusion this
      by_cases hi : i < K
      · simp only [if_pos hi, ThreadPool.Submit] at h
        by_cases hroom : s.jobs.length < s.capacidad
        · simp only [if_pos hroom, Option.some.injEq] at h
          subst h
          refine ⟨⟨hcap, hlen, hwg, ?_, ?_, ?_, ?_, hcont, hq, ?_⟩, ?_⟩
          · intro i2 hi2
            simp only [ThreadPool.Productor.enviando.injEq] at hi2
            exact ⟨hc, by omega⟩
          · intro h0
            rcases h0 with h0 | h0 <;> exact ThreadPool.Productor.noConfusion h0
          · intro h0
            exact absurd h0 hnoterm
          · intro j
            have := hcu j
            simp only [ThreadPool.enviados, hp] at this
            simp only [ThreadPool.enviados, List.count_append, List.count_cons, List.count_nil,
              beq_iff_eq]
            split_ifs at this ⊢ <;> omega
          · intro h0
            exact ThreadPool.Productor.noConfusion h0
          · simp only [ThreadPool.medida, hp, List.length_append, List.length_cons,
              List.length_nil]
            omega
        · simp only [if_neg hroom] at h
          exact Option.noConfusion h
      · simp only [if_neg hi, Option.some.injEq, ThreadPool.Wait.close] at h
        subst h
        have hiK2 : i = K := by omega
        refine ⟨⟨hcap, hlen, hwg, ?_, ?_, ?_, ?_, hcont, hq, ?_⟩, ?_⟩
        · intro i2 hi2
          exact ThreadPool.Productor.noConfusion hi2
        · intro _
          rfl
        · intro h0
          exact absurd h0 hnoterm
        · intro j
          have := hcu j
          simp only [ThreadPool.enviados, hp, hiK2] at this
          simpa only [ThreadPool.enviados] using this
        · intro h0
          exact ThreadPool.Productor.noConfusion h0
        · simp only [ThreadPool.medida, hp]
          omega
    | esperandoWg =>
      rw [hp] at h
      simp only [ThreadPool.Wait.wgWait] at h
      by_cases hz : s.wg = 0
      · simp only [if_pos hz, Option.some.injEq] at h
        subst h
        refine ⟨⟨hcap, hlen, hwg, ?_, ?_, hterm, ?_, hcont, hq, ?_⟩, ?_⟩
        · intro i2 hi2
          exact ThreadPool.Productor.noConfusion hi2
        · intro _
          exact hcerr (Or.inl hp)
        · intro j
          have := hcu j
          simp only [ThreadPool.enviados, hp] at this
          simpa only [ThreadPool.enviados] using this
        · intro _
          exact hz
        · simp only [ThreadPool.medida, hp]
          omega
      · simp only [if_neg hz] at h
        exact Option.noConfusion h
    | retornado =>
      rw [hp] at h
      exact Option.noConfusion h
  | recibir w =>
    simp only [ThreadPool.paso] at h
    split at h
    · rename_i job resto ht hjobs
      simp only [Option.some.injEq] at h
      subst h
      have hct := count_set_getElem s.trabajadores w _ (ThreadPool.Trabajador.ejecutando job)
        ThreadPool.Trabajador.terminado ht
      simp only [reduceCtorEq, if_false, add_zero] at hct
      refine ⟨⟨hcap, by simpa using hlen, by simpa only [hct] using hwg, hab, hcerr, ?_, ?_,
        hcont, hq, hret⟩, ?_⟩
      · intro h0
        simp only [hct] at h0
        have := (hterm h0).2
        rw [hjobs] at this
        exact List.noConfusion this
      · intro j
        have := hcu j
        have hcj := count_set_getElem s.trabajadores w _ (ThreadPool.Trabajador.ejecutando job)
          (ThreadPool.Trabajador.ejecutando j) ht
        simp only [reduceCtorEq, if_false, add_zero,
          ThreadPool.Trabajador.ejecutando.injEq] at hcj
        simp only [hjobs, List.count_cons, beq_iff_eq] at this
        simp only [ThreadPool.enviados] at this ⊢
        rw [hcj]
        omega
      · have hm := sum_map_set_getElem (fun t : ThreadPool.Trabajador =>
          match t with
          | ThreadPool.Trabajador.esperando => 1
          | ThreadPool.Trabajador.ejecutando _ => 2
          | ThreadPool.Trabajador.terminado => 0) s.trabajadores w _
          (ThreadPool.Trabajador.ejecutando job) ht
        simp only [ThreadPool.medida, hjobs, List.length_cons]
        simp only at hm
        omega
    · exact Option.noConfusion h
  | terminarJob w =>
    simp only [ThreadPool.paso] at h
    split at h
    · rename_i job ht
      simp only [Option.some.injEq] at h
      subst h
      have hct := count_set_getElem s.trabajadores w _ ThreadPool.Trabajador.esperando
        ThreadPool.Trabajador.terminado ht
      simp only [reduceCtorEq, if_false, add_zero] at hct
      have hw : w < workers := by
        rw [← hlen]
        exact (List.getElem?_eq_some_iff.mp ht).1
      refine ⟨⟨hcap, by simpa using hlen, by simpa only [hct] using hwg, hab, hcerr, ?_, ?_,
        ?_, ?_, hret⟩, ?_⟩
      · intro h0
        simp only [hct] at h0
        exact hterm h0
      · intro j
        have := hcu j
        have hcj := count_set_getElem s.trabajadores w _ ThreadPool.Trabajador.esperando
          (ThreadPool.Trabajador.ejecutando j) ht
        simp only [reduceCtorEq, if_false, add_zero,
          ThreadPool.Trabajador.ejecutando.injEq] at hcj
        simp only [List.map_cons, List.count_cons, beq_iff_eq]
        simp only [ThreadPool.enviados] at this ⊢
        omega
      · simp only [List.length_cons, hcont]
      · intro e he
        rcases List.mem_cons.mp he with rfl | he
        · exact hw
        · exact hq e he
      · have hm := sum_map_set_getElem (fun t : ThreadPool.Trabajador =>
          match t with
          | ThreadPool.Trabajador.esperando => 1
          | ThreadPool.Trabajador.ejecutando _ => 2
          | ThreadPool.Trabajador.terminado => 0) s.trabajadores w _
          ThreadPool.Trabajador.esperando ht
        simp only [ThreadPool.medida]
        simp only at hm
        omega
    · exact Option.noConfusion h
  | salir w =>
    simp only [ThreadPool.paso] at h
    split at h
    · rename_i ht hjobs hcl
      simp only [Option.some.injEq] at h
      subst h
      have hct := count_set_getElem s.trabajadores w _ ThreadPool.Trabajador.terminado
        ThreadPool.Trabajador.terminado ht
      simp only [reduceCtorEq, if_false, add_zero, if_true] at hct
      have hle : (s.trabajadores.set w ThreadPool.Trabajador.terminado).count
          ThreadPool.Trabajador.terminado ≤ workers := by
        rw [← hlen]
        simpa using List.count_le_length ThreadPool.Trabajador.terminado
          (s.trabajadores.set w ThreadPool.Trabajador.terminado)
      refine ⟨⟨hcap, by simpa using hlen, ?_, hab, hcerr, ?_, ?_, hcont, hq, ?_⟩, ?_⟩
      · simp only [hct]
        omega
      · intro _
        exact ⟨hcl, hjobs⟩
      · intro j
        have := hcu j
        have hcj := count_set_getElem s.trabajadores w _ ThreadPool.Trabajador.terminado
          (ThreadPool.Trabajador.ejecutando j) ht
        simp only [reduceCtorEq, if_false, add_zero] at hcj
        simp only [ThreadPool.enviados] at this ⊢
        rw [hcj]
        exact this
      · intro h0
        have := hret h0
        simp only [this]
      · have hm := sum_map_set_getElem (fun t : ThreadPool.Trabajador =>
          match t with
          | ThreadPool.Trabajador.esperando => 1
          | ThreadPool.Trabajador.ejecutando _ => 2
          | ThreadPool.Trabajador.terminado => 0) s.trabajadores w _
          ThreadPool.Trabajador.terminado ht
        simp only [ThreadPool.medida]
        simp only at hm
        omega
    · exact Option.noConfusion h

/-- Runs keep the invariant, and the measure goes down by the length of the run. -/
theorem ThreadPool.correr_inv (workers K : Nat) (acciones : List ThreadPool.Accion) :
    ∀ s s2 : ThreadPool.Estado, ThreadPool.Inv workers K s →
      ThreadPool.correr K s acciones = some s2 →
      ThreadPool.Inv workers K s2 ∧
        ThreadPool.medida K s = ThreadPool.medida K s2 + acciones.length := by
  induction acciones with
  | nil =>
    intro s s2 hinv h
    simp only [ThreadPool.correr, Option.some.injEq] at h
    subst h
    exact ⟨hinv, rfl⟩
  | cons a resto ih =>
    intro s s2 hinv h
    simp only [ThreadPool.correr] at h
    cases hp : ThreadPool.paso K s a with
    | none =>
      rw [hp] at h
      exact Option.noConfusion h
    | some s1 =>
      rw [hp] at h
      obtain ⟨hinv1, hm1⟩ := ThreadPool.paso_inv workers K s s1 a hinv hp
      obtain ⟨hinv2, hm2⟩ := ih s1 s2 hinv1 h
      exact ⟨hinv2, by simp only [List.length_cons]; omega⟩

theorem ThreadPool.correr_append (K : Nat) (xs ys : List ThreadPool.Accion) :
    ∀ s s1 : ThreadPool.Estado, ThreadPool.correr K s xs = some s1 →
      ThreadPool.correr K s (xs ++ ys) = ThreadPool.correr K s1 ys := by
  induction xs with
  | nil =>
    intro s s1 h
    simp only [ThreadPool.correr, Option.some.injEq] at h
    subst h
    rfl
  | cons a resto ih =>
    intro s s1 h
    simp only [ThreadPool.correr, List.cons_append] at h ⊢
    cases hp : ThreadPool.paso K s a with
    | none =>
      rw [hp] at h
      exact Option.noConfusion h
    | some s2 =>
      rw [hp] at h
      simp only
      exact ih s2 s1 h

/-- No deadlock: while `Wait` has not returned, some goroutine can move. -/
theorem ThreadPool.progreso (workers K : Nat) (hw : 1 ≤ workers) (s : ThreadPool.Estado)
    (hinv : ThreadPool.Inv workers K s) (hnr : s.productor ≠ ThreadPool.Productor.retornado) :
    ∃ a s2, ThreadPool.paso K s a = some s2 := by
  obtain ⟨hcap, hlen, hwg, hab, hcerr, hterm, hcu, hcont, hq, hret⟩ := hinv
  -- a worker that has not left its loop can always move once the buffer is not empty, and
  -- also when the buffer is empty and the channel is closed
  have hworker : ∀ (w : Nat) (t : ThreadPool.Trabajador), s.trabajadores[w]? = some t →
      t ≠ ThreadPool.Trabajador.terminado → (s.jobs ≠ [] ∨ s.cerrado = true) →
      ∃ a s2, ThreadPool.paso K s a = some s2 := by
    intro w t ht hne hjc
    cases t with
    | terminado => exact absurd rfl hne
    | ejecutando job =>
      exact ⟨ThreadPool.Accion.terminarJob w, _, by simp only [ThreadPool.paso, ht]; rfl⟩
    | esperando =>
      cases hj : s.jobs with
      | cons job resto =>
        exact ⟨ThreadPool.Accion.recibir w, _, by simp only [ThreadPool.paso, ht, hj]; rfl⟩
      | nil =>
        have hc : s.cerrado = true := by
          rcases hjc with h | h
          · exact absurd hj h
          · exact h
        exact ⟨ThreadPool.Accion.salir w, _, by simp only [ThreadPool.paso, ht, hj, hc]; rfl⟩
  -- some worker has not left its loop when the counter of `wg` is positive
  have hexists : 0 < s.wg → ∃ (w : Nat) (t : ThreadPool.Trabajador),
      s.trabajadores[w]? = some t ∧ t ≠ ThreadPool.Trabajador.terminado := by
    intro hpos
    have hlt : s.trabajadores.count ThreadPool.Trabajador.terminado < s.trabajadores.length := by
      omega
    have hnall : ¬ ∀ b ∈ s.trabajadores, ThreadPool.Trabajador.terminado = b := by
      intro hall
      have := List.count_eq_length.mpr hall
      omega
    push_neg at hnall
    obtain ⟨t, htmem, htne⟩ := hnall
    obtain ⟨w, hwt⟩ := List.mem_iff_getElem?.mp htmem
    exact ⟨w, t, hwt, fun h => htne h.symm⟩
  cases hp : s.productor with
  | retornado => exact absurd hp hnr
  | esperandoWg =>
    by_cases hz : s.wg = 0
    · exact ⟨ThreadPool.Accion.productor, _, by
        simp only [ThreadPool.paso, hp, ThreadPool.Wait.wgWait, if_pos hz]; rfl⟩
    · obtain ⟨w, t, ht, hne⟩ := hexists (by omega)
      exact hworker w t ht hne (Or.inr (hcerr (Or.inl hp)))
  | enviando i =>
    obtain ⟨hc, hiK⟩ := hab i hp
    by_cases hi : i < K
    · by_cases hroom : s.jobs.length < s.capacidad
      · exact ⟨ThreadPool.Accion.productor, _, by
          simp only [ThreadPool.paso, hp, if_pos hi, ThreadPool.Submit, if_pos hroom]; rfl⟩
      · have hnoterm : s.trabajadores.count ThreadPool.Trabajador.terminado = 0 := by
          by_contra h0
          have := (hterm (by omega)).1
          rw [hc] at this
          exact Bool.noConfusion this
        obtain ⟨w, t, ht, hne⟩ := hexists (by omega)
        have hjobs : s.jobs ≠ [] := by
          intro h0
          rw [h0, hcap] at hroom
          simp only [List.length_nil] at hroom
          omega
        exact hworker w t ht hne (Or.inl hjobs)
    · exact ⟨ThreadPool.Accion.productor, _, by simp only [ThreadPool.paso, hp, if_neg hi]; rfl⟩

/-- Every state that satisfies the invariant has a schedule that ends with `Wait` returned. -/
theorem ThreadPool.completa (workers K : Nat) (hw : 1 ≤ workers) :
    ∀ (m : Nat) (s : ThreadPool.Estado), ThreadPool.medida K s = m →
      ThreadPool.Inv workers K s →
      ∃ resto s2, ThreadPool.correr K s resto = some s2 ∧
        s2.productor = ThreadPool.Productor.retornado := by
  intro m
  induction m with
  | zero =>
    intro s hm hinv
    by_cases hr : s.productor = ThreadPool.Productor.retornado
    · exact ⟨[], s, rfl, hr⟩
    · obtain ⟨a, s1, hp⟩ := ThreadPool.progreso workers K hw s hinv hr
      have := (ThreadPool.paso_inv workers K s s1 a hinv hp).2
      omega
  | succ m ih =>
    intro s hm hinv
    by_cases hr : s.productor = ThreadPool.Productor.retornado
    · exact ⟨[], s, rfl, hr⟩
    · obtain ⟨a, s1, hp⟩ := ThreadPool.progreso workers K hw s hinv hr
      obtain ⟨hinv1, hm1⟩ := ThreadPool.paso_inv workers K s s1 a hinv hp
      obtain ⟨resto, s2, hrun, hret⟩ := ih s1 (by omega) hinv1
      exact ⟨a :: resto, s2, by simp only [ThreadPool.correr, hp, hrun], hret⟩

/-- What the invariant gives once `Wait` has returned. -/
theorem ThreadPool.inv_retornado (workers K : Nat) (hw : 1 ≤ workers) (s : ThreadPool.Estado)
    (hinv : ThreadPool.Inv workers K s) (hr : s.productor = ThreadPool.Productor.retornado) :
    s.contador = K ∧ s.bitacora.length = K ∧
    (∀ j, j < K → (s.bitacora.map Prod.snd).count j = 1) ∧
    (∀ e ∈ s.bitacora, e.1 < workers ∧ e.2 < K) ∧
    s.jobs = [] ∧ (∀ t ∈ s.trabajadores, t = ThreadPool.Trabajador.terminado) := by
  obtain ⟨hcap, hlen, hwg, hab, hcerr, hterm, hcu, hcont, hq, hret⟩ := hinv
  have hz := hret hr
  have hall : ∀ t ∈ s.trabajadores, ThreadPool.Trabajador.terminado = t :=
    List.count_eq_length.mp (by omega)
  have hjobs : s.jobs = [] := (hterm (by omega)).2
  have hcount : ∀ j, (s.bitacora.map Prod.snd).count j = if j < K then 1 else 0 := by
    intro j
    have := hcu j
    have hej : s.trabajadores.count (ThreadPool.Trabajador.ejecutando j) = 0 := by
      apply List.count_eq_zero_of_not_mem
      intro hmem
      exact ThreadPool.Trabajador.noConfusion (hall _ hmem)
    simp only [ThreadPool.enviados, hr, hjobs, List.count_nil, hej, add_zero] at this
    exact this
  have hperm : (s.bitacora.map Prod.snd).Perm (List.range K) := by
    rw [List.perm_iff_count]
    intro j
    rw [hcount j]
    by_cases hj : j < K
    · rw [if_pos hj, List.count_eq_one_of_mem (List.nodup_range K) (List.mem_range.mpr hj)]
    · rw [if_neg hj, List.count_eq_zero_of_not_mem (by simpa using hj)]
  have hlenK : s.bitacora.length = K := by
    have := hperm.length_eq
    simpa using this
  refine ⟨by rw [hcont, hlenK], hlenK, ?_, ?_, hjobs, fun t ht => (hall t ht).symm⟩
  · intro j hj
    rw [hcount j, if_pos hj]
  · intro e he
    refine ⟨hq e he, ?_⟩
    by_contra hge
    have h0 := hcount e.2
    rw [if_neg hge] at h0
    have hmem : e.2 ∈ s.bitacora.map Prod.snd := List.mem_map.mpr ⟨e, he, rfl⟩
    have := List.count_pos_iff.mpr hmem
    omega

theorem ThreadPool.medida_inicial (workers K : Nat) :
    ThreadPool.medida K (ThreadPool.NewThreadPool workers) = 3 * K + 2 + workers := by
  simp [ThreadPool.medida, ThreadPool.NewThreadPool]

/-- C10: for every `workers ≥ 1` and every `K ≥ 0`, in every interleaving of
`NewThreadPool(workers)`, `K` calls of `Submit` and one call of `Wait`: once `Wait` has
returned, the completion counter equals `K`, the log holds exactly `K` executions, each of the
jobs `0 .. K-1` was executed exactly once, by one worker of the pool, the buffer is empty and
every worker has left its loop; while `Wait` has not returned some goroutine can move (no
deadlock); every run has at most `3*K + 2 + workers` steps, and every run extends to one in
which `Wait` returns. -/
theorem C10_pool_ejecuta_cada_job_una_vez (workers K : Nat) (hw : 1 ≤ workers)
    (acciones : List ThreadPool.Accion) (s : ThreadPool.Estado)
    (hrun : ThreadPool.correr K (ThreadPool.NewThreadPool workers) acciones = some s) :
    (s.productor = ThreadPool.Productor.retornado →
      s.contador = K ∧ s.bitacora.length = K ∧
      (∀ j, j < K → (s.bitacora.map Prod.snd).count j = 1) ∧
      (∀ e ∈ s.bitacora, e.1 < workers ∧ e.2 < K) ∧
      s.jobs = [] ∧ (∀ t ∈ s.trabajadores, t = ThreadPool.Trabajador.terminado)) ∧
    (s.productor ≠ ThreadPool.Productor.retornado → ∃ a s2, ThreadPool.paso K s a = some s2) ∧
    acciones.length + ThreadPool.medida K s = 3 * K + 2 + workers ∧
    (∃ resto s2,
      ThreadPool.correr K (ThreadPool.NewThreadPool workers) (acciones ++ resto) = some s2 ∧
        s2.productor = ThreadPool.Productor.retornado) := by
  obtain ⟨hinv, hm⟩ := ThreadPool.correr_inv workers K acciones _ s
    (ThreadPool.NewThreadPool_inv workers K) hrun
  rw [ThreadPool.medida_inicial] at hm
  refine ⟨ThreadPool.inv_retornado workers K hw s hinv,
    ThreadPool.progreso workers K hw s hinv, by omega, ?_⟩
  obtain ⟨resto, s2, hrun2, hret⟩ := ThreadPool.completa workers K hw _ s rfl hinv
  exact ⟨resto, s2, by rw [ThreadPool.correr_append K acciones resto _ s hrun, hrun2], hret⟩

/-- C10 at two workers and three jobs, on the run `ejemploAcciones`. -/
theorem C10_witness :
    1 ≤ 2 ∧
    ThreadPool.correr 3 (ThreadPool.NewThreadPool 2) ThreadPool.ejemploAcciones
      = some ThreadPool.ejemploFinal ∧
    (ThreadPool.ejemploFinal.productor = ThreadPool.Productor.retornado →
      ThreadPool.ejemploFinal.contador = 3 ∧ ThreadPool.ejemploFinal.bitacora.length = 3 ∧
      (∀ j, j < 3 → (ThreadPool.ejemploFinal.bitacora.map Prod.snd).count j = 1) ∧
      (∀ e ∈ ThreadPool.ejemploFinal.bitacora, e.1 < 2 ∧ e.2 < 3) ∧
      ThreadPool.ejemploFinal.jobs = [] ∧
      (∀ t ∈ ThreadPool.ejemploFinal.trabajadores, t = ThreadPool.Trabajador.terminado)) ∧
    (ThreadPool.ejemploFinal.productor ≠ ThreadPool.Productor.retornado →
      ∃ a s2, ThreadPool.paso 3 ThreadPool.ejemploFinal a = some s2) ∧
    ThreadPool.ejemploAcciones.length + ThreadPool.medida 3 ThreadPool.ejemploFinal
      = 3 * 3 + 2 + 2 ∧
    (∃ resto s2,
      ThreadPool.correr 3 (ThreadPool.NewThreadPool 2) (ThreadPool.ejemploAcciones ++ resto)
        = some s2 ∧
        s2.productor = ThreadPool.Productor.retornado) :=
  ⟨by decide, by decide,
    C10_pool_ejecuta_cada_job_una_vez 2 3 (by decide) ThreadPool.ejemploAcciones
      ThreadPool.ejemploFinal (by decide)⟩
